import Mathlib

/-!
# Verification of the biodivine-stdlib graph core

This file gives a shallow embedding of the biodivine "standard library"
(`src/lib.rs`, `src/graph/mod.rs`, `src/set/mod.rs`) and proves properties of
its reachability algorithm.

Embedding choices:
* `HashVertexSet<V>` wraps Rust's `std::collections::HashSet<V>`; we model the
  hash set as a duplicate-free list of elements, with `insert` returning
  `true` exactly when the element was newly added (the documented contract of
  `HashSet::insert`), `contains` equality-based membership and `is_empty`
  emptiness.
* The successor iterator produced by an `EvolutionOperator` is modelled as a
  `List V` of the vertices it will yield, in order.  The generic algorithm
  `GraphAlgorithms::reachable_states` is therefore parameterised by a function
  `next : V → List V`.
* The Rust `while let` loop of `reachable_states` is embedded as a
  fuel-indexed recursion: `none` means the fuel ran out before the loop
  finished, `some R` means the loop terminated with result `R`.  One unit of
  fuel corresponds to one iteration of the loop body.  The `Vec` stack (top at
  the end) is modelled as a list with its top at the head: `push` is `cons`,
  `last_mut`/`pop` act on the head.
* `SimpleGraph` stores its `HashMap`s as association lists; its `next`
  returns `Option (List String)`, with `none` modelling the `unwrap` panic
  when the queried vertex has no entry in `successors`.
-/

set_option linter.unusedSectionVars false

namespace Biodivine

variable {V : Type} [DecidableEq V]

/-- Model of `HashVertexSet<V>` from `src/lib.rs`: a wrapper around a hash
set, represented here as the list of its elements. -/
structure HashVertexSet (V : Type) where
  set : List V
deriving DecidableEq

/-- Model of `HashVertexSet::contains`: equality-based membership test
(`self.set.contains(vertex)`). -/
def HashVertexSet.contains (s : HashVertexSet V) (v : V) : Bool :=
  decide (v ∈ s.set)

/-- Model of `HashVertexSet::is_empty`: `self.set.is_empty()`. -/
def HashVertexSet.isEmptySet (s : HashVertexSet V) : Bool :=
  s.set.isEmpty

/-- Model of `HashVertexSet::insert`, delegating to `HashSet::insert`: adds the vertex
when absent; returns the updated set together with the boolean result (`true`
iff the vertex was newly inserted). -/
def HashVertexSet.insert (s : HashVertexSet V) (v : V) : HashVertexSet V × Bool :=
  if v ∈ s.set then (s, false) else (⟨v :: s.set⟩, true)

/-- A sequence of `insert` calls, ignoring the returned booleans.  Used to
express "the states a `HashVertexSet` can be in after some history of
insertions". -/
def insertAll (s : HashVertexSet V) (vs : List V) : HashVertexSet V :=
  vs.foldl (fun s' v => (s'.insert v).1) s

/-- The loop body of `GraphAlgorithms::reachable_states` (`src/lib.rs`,
lines 99–109), with the fuel counting loop iterations.  The stack of
in-progress successor iterators has its top at the head.  `none` = the fuel
was exhausted before the stack emptied. -/
def reachableStatesAux (next : V → List V) :
    Nat → List (List V) → HashVertexSet V → Option (HashVertexSet V)
  | _, [], result => some result
  | 0, _ :: _, _ => none
  | fuel + 1, (t :: it) :: rest, result =>
    if result.contains t then
      reachableStatesAux next fuel (it :: rest) result
    else
      reachableStatesAux next fuel (next t :: it :: rest) (result.insert t).1
  | fuel + 1, [] :: rest, result => reachableStatesAux next fuel rest result

/-- Model of `GraphAlgorithms::reachable_states` (`src/lib.rs`, lines 94–111): start
from an empty vertex set produced by `new_vertex_set`, push the successor
iterator of the source, insert the source, then run the loop. -/
def reachableStates (next : V → List V) (source : V) (fuel : Nat) :
    Option (HashVertexSet V) :=
  reachableStatesAux next fuel [next source]
    ((HashVertexSet.mk []).insert source).1

/-- Ghost-instrumented copy of `reachableStatesAux` that additionally carries
the number of iterators pushed onto the stack so far (the initial push of the
source's iterator included).  The computation is otherwise identical. -/
def reachableStatesAuxCount (next : V → List V) :
    Nat → List (List V) → HashVertexSet V → Nat → Option (Nat × HashVertexSet V)
  | _, [], result, pushes => some (pushes, result)
  | 0, _ :: _, _, _ => none
  | fuel + 1, (t :: it) :: rest, result, pushes =>
    if result.contains t then
      reachableStatesAuxCount next fuel (it :: rest) result pushes
    else
      reachableStatesAuxCount next fuel (next t :: it :: rest)
        (result.insert t).1 (pushes + 1)
  | fuel + 1, [] :: rest, result, pushes =>
    reachableStatesAuxCount next fuel rest result pushes

/-- The function `reachable_states` with the push counter, starting at 1 for
the initial `stack.push(graph.next(source))`. -/
def reachableStatesCount (next : V → List V) (source : V) (fuel : Nat) :
    Option (Nat × HashVertexSet V) :=
  reachableStatesAuxCount next fuel [next source]
    ((HashVertexSet.mk []).insert source).1 1

/-- One step of the evolution operator: `v` is among the successors yielded
for `u`. -/
def Step (next : V → List V) (u v : V) : Prop :=
  v ∈ next u

/-- Vertex `v` is reachable from `s` by zero or more evolution-operator
steps. -/
def Reachable (next : V → List V) (s v : V) : Prop :=
  Relation.ReflTransGen (Step next) s v

/-- Loop invariant of `reachable_states`: the source has been inserted, every
inserted vertex is reachable from the source, every pending iterator element
is a successor of some inserted vertex, every successor of an inserted vertex
is either inserted or still pending on the stack, and the result set holds no
duplicates. -/
def Inv (next : V → List V) (s : V) (stack : List (List V))
    (result : HashVertexSet V) : Prop :=
  s ∈ result.set ∧
  (∀ v ∈ result.set, Reachable next s v) ∧
  (∀ it ∈ stack, ∃ u ∈ result.set, ∀ t ∈ it, t ∈ next u) ∧
  (∀ u ∈ result.set, ∀ t ∈ next u,
    t ∈ result.set ∨ ∃ it ∈ stack, t ∈ it) ∧
  result.set.Nodup

/-- Termination measure for the loop: total pending iterator elements, plus
stack depth, plus `C` per reachable vertex not yet inserted (`N` bounds the
number of reachable vertices, `C` strictly bounds every successor-list
length). -/
def dfsMeasure (C N : Nat) (stack : List (List V)) (result : HashVertexSet V) : Nat :=
  (stack.map List.length).sum + stack.length + C * (N - result.set.length)

/-- Model of `SimpleGraph` from `src/lib.rs`, the adjacency-list reference
instance; the two `HashMap<String, Vec<String>>` fields are association
lists. -/
structure SimpleGraph where
  vertices : List String
  successors : List (String × List String)
  predecessors : List (String × List String)

/-- Model of `SimpleGraph::next` (`src/lib.rs`, lines 61–63):
`self.successors.get(source).unwrap().clone().into_iter()`.  The `none` case
models the `unwrap` panic on a vertex with no `successors` entry. -/
def SimpleGraph.next (g : SimpleGraph) (source : String) : Option (List String) :=
  g.successors.lookup source

/-- The successor function of a `SimpleGraph` on its non-panicking domain,
with missing entries read as no successors (used only to state reachability
over `SimpleGraph`; the algorithm itself panics on missing entries). -/
def SimpleGraph.nextD (g : SimpleGraph) (v : String) : List String :=
  (g.next v).getD []

/-- Vertex `v` is reachable from `s` in a `SimpleGraph` by zero or more
steps. -/
def SimpleGraph.ReachableFrom (g : SimpleGraph) (s v : String) : Prop :=
  Reachable g.nextD s v

/-- Model of `SimpleGraphAlgorithms::new_vertex_set` (`src/lib.rs`, lines
71–73): returns a fresh empty `HashVertexSet`. -/
def SimpleGraphAlgorithms.new_vertex_set (_g : SimpleGraph) : HashVertexSet String :=
  ⟨[]⟩

/-- Outcome of running `reachable_states` instantiated at `SimpleGraph`,
whose `next` can panic. -/
inductive RunResult where
  | ok : HashVertexSet String → RunResult
  | unwrapFailed : RunResult
  | outOfFuel : RunResult
deriving DecidableEq

/-- The `reachable_states` loop instantiated at `SimpleGraph`: identical to
`reachableStatesAux`, except that pushing the successor iterator of a newly
discovered vertex goes through `SimpleGraph.next`, whose `none` result
(missing map entry) aborts the run like the Rust `unwrap` panic. -/
def simpleReachAux (g : SimpleGraph) :
    Nat → List (List String) → HashVertexSet String → RunResult
  | _, [], result => .ok result
  | 0, _ :: _, _ => .outOfFuel
  | fuel + 1, (t :: it) :: rest, result =>
    if result.contains t then
      simpleReachAux g fuel (it :: rest) result
    else
      match g.next t with
      | none => .unwrapFailed
      | some succ => simpleReachAux g fuel (succ :: it :: rest) (result.insert t).1
  | fuel + 1, [] :: rest, result => simpleReachAux g fuel rest result

/-- Model of `SimpleGraphAlgorithms::reachable_states(graph, source)`: the
generic algorithm instantiated at `SimpleGraph` (set factory `new_vertex_set`,
operator `SimpleGraph.next`), with the initial `graph.next(source)` able to
panic as well. -/
def SimpleGraph.reachable_states (g : SimpleGraph) (source : String) (fuel : Nat) :
    RunResult :=
  match g.next source with
  | none => .unwrapFailed
  | some succ =>
    simpleReachAux g fuel [succ]
      ((SimpleGraphAlgorithms.new_vertex_set g).insert source).1

/-- Vertex names of the unit test `tests::it_works`. -/
def vA : String := "A"

/-- Vertex name `B` of the unit test. -/
def vB : String := "B"

/-- Vertex name `C` of the unit test. -/
def vC : String := "C"

/-- Vertex name for the isolated-vertex scenario. -/
def vX : String := "X"

/-- The graph of the unit test `tests::it_works` (`src/lib.rs`, lines
120–147): vertices `A`, `B`, `C`, edges `A→B`, `B→C`, `C→C`. -/
def testGraph : SimpleGraph :=
  ⟨[vA, vB, vC],
   [(vA, [vB]), (vB, [vC]), (vC, [vC])],
   [(vA, []), (vB, [vA]), (vC, [vC])]⟩

/-- A copy of `testGraph` with the same `successors` map but different
`vertices` and `predecessors` fields (inconsistent on purpose). -/
def testGraphAlt : SimpleGraph :=
  ⟨[],
   [(vA, [vB]), (vB, [vC]), (vC, [vC])],
   []⟩

/-- A graph with a single isolated vertex `X` and no outgoing edges. -/
def testGraphX : SimpleGraph :=
  ⟨[vX], [(vX, [])], [(vX, [])]⟩

/-- The evolution operator with no successors anywhere (used for concrete
instantiations of the generic algorithm). -/
def nilOp : String → List String := fun _ => []

/-- View a fuel-limited run of the generic algorithm as a `RunResult` (the
generic algorithm cannot panic). -/
def runOfOption : Option (HashVertexSet String) → RunResult
  | none => .outOfFuel
  | some R => .ok R

/-! ## Basic lemmas about the vertex set -/

theorem HashVertexSet.contains_iff (s : HashVertexSet V) (v : V) :
    s.contains v = true ↔ v ∈ s.set := by
  simp [HashVertexSet.contains]

/-! ## The loop invariant and its preservation -/

theorem inv_init (next : V → List V) (s : V) :
    Inv next s [next s] ((HashVertexSet.mk []).insert s).1 := by
  simp only [HashVertexSet.insert, List.not_mem_nil, if_neg, if_false]
  refine ⟨List.mem_singleton.mpr rfl, ?_, ?_, ?_, List.nodup_singleton s⟩
  · intro v hv
    rw [List.mem_singleton] at hv
    exact hv ▸ Relation.ReflTransGen.refl
  · intro it hit
    rw [List.mem_singleton] at hit
    exact ⟨s, List.mem_singleton.mpr rfl, fun t ht => hit ▸ ht⟩
  · intro u hu t ht
    rw [List.mem_singleton] at hu
    exact Or.inr ⟨next s, List.mem_singleton.mpr rfl, hu ▸ ht⟩

theorem inv_visited (next : V → List V) (s t : V) (it : List V)
    (rest : List (List V)) (result : HashVertexSet V)
    (hInv : Inv next s ((t :: it) :: rest) result) (ht : t ∈ result.set) :
    Inv next s (it :: rest) result := by
  obtain ⟨h1, h2, h3, h4, h5⟩ := hInv
  refine ⟨h1, h2, ?_, ?_, h5⟩
  · intro it' hit'
    rcases List.mem_cons.mp hit' with rfl | hit'
    · obtain ⟨u, hu, hsub⟩ := h3 (t :: it') (List.mem_cons_self _ _)
      exact ⟨u, hu, fun x hx => hsub x (List.mem_cons_of_mem t hx)⟩
    · exact h3 it' (List.mem_cons_of_mem _ hit')
  · intro u hu x hx
    rcases h4 u hu x hx with hin | ⟨it0, hit0, hxit0⟩
    · exact Or.inl hin
    · rcases List.mem_cons.mp hit0 with rfl | hit0
      · rcases List.mem_cons.mp hxit0 with rfl | hxit
        · exact Or.inl ht
        · exact Or.inr ⟨it, List.mem_cons_self _ _, hxit⟩
      · exact Or.inr ⟨it0, List.mem_cons_of_mem _ hit0, hxit0⟩

theorem inv_push (next : V → List V) (s t : V) (it : List V)
    (rest : List (List V)) (result : HashVertexSet V)
    (hInv : Inv next s ((t :: it) :: rest) result) (ht : t ∉ result.set) :
    Inv next s (next t :: it :: rest) (result.insert t).1 := by
  obtain ⟨h1, h2, h3, h4, h5⟩ := hInv
  have hreach : Reachable next s t := by
    obtain ⟨u, hu, hsub⟩ := h3 (t :: it) (List.mem_cons_self _ _)
    exact Relation.ReflTransGen.tail (h2 u hu) (hsub t (List.mem_cons_self _ _))
  simp only [HashVertexSet.insert, if_neg ht]
  refine ⟨List.mem_cons_of_mem t h1, ?_, ?_, ?_, List.nodup_cons.mpr ⟨ht, h5⟩⟩
  · intro v hv
    rcases List.mem_cons.mp hv with rfl | hv
    · exact hreach
    · exact h2 v hv
  · intro it' hit'
    rcases List.mem_cons.mp hit' with rfl | hit'
    · exact ⟨t, List.mem_cons_self _ _, fun x hx => hx⟩
    · rcases List.mem_cons.mp hit' with rfl | hit'
      · obtain ⟨u, hu, hsub⟩ := h3 (t :: it') (List.mem_cons_self _ _)
        exact ⟨u, List.mem_cons_of_mem t hu,
          fun x hx => hsub x (List.mem_cons_of_mem t hx)⟩
      · obtain ⟨u, hu, hsub⟩ := h3 it' (List.mem_cons_of_mem _ hit')
        exact ⟨u, List.mem_cons_of_mem t hu, hsub⟩
  · intro u hu x hx
    rcases List.mem_cons.mp hu with rfl | hu
    · exact Or.inr ⟨next u, List.mem_cons_self _ _, hx⟩
    · rcases h4 u hu x hx with hin | ⟨it0, hit0, hxit0⟩
      · exact Or.inl (List.mem_cons_of_mem t hin)
      · rcases List.mem_cons.mp hit0 with rfl | hit0
        · rcases List.mem_cons.mp hxit0 with rfl | hxit
          · exact Or.inl (List.mem_cons_self _ _)
          · exact Or.inr ⟨it, List.mem_cons_of_mem _ (List.mem_cons_self _ _), hxit⟩
        · exact Or.inr ⟨it0, List.mem_cons_of_mem _ (List.mem_cons_of_mem _ hit0), hxit0⟩

theorem inv_pop (next : V → List V) (s : V) (rest : List (List V))
    (result : HashVertexSet V) (hInv : Inv next s ([] :: rest) result) :
    Inv next s rest result := by
  obtain ⟨h1, h2, h3, h4, h5⟩ := hInv
  refine ⟨h1, h2, ?_, ?_, h5⟩
  · intro it hit
    exact h3 it (List.mem_cons_of_mem _ hit)
  · intro u hu x hx
    rcases h4 u hu x hx with hin | ⟨it0, hit0, hxit0⟩
    · exact Or.inl hin
    · rcases List.mem_cons.mp hit0 with rfl | hit0
      · exact absurd hxit0 (List.not_mem_nil x)
      · exact Or.inr ⟨it0, hit0, hxit0⟩

theorem reachable_mem_of_closed (next : V → List V) (s : V) (l : List V)
    (hs : s ∈ l) (hcl : ∀ u ∈ l, ∀ t ∈ next u, t ∈ l) :
    ∀ v, Reachable next s v → v ∈ l := by
  intro v hv
  induction hv with
  | refl => exact hs
  | tail _ hbc ih => exact hcl _ ih _ hbc

theorem inv_final (next : V → List V) (s : V) (result : HashVertexSet V)
    (hInv : Inv next s [] result) :
    ∀ v, v ∈ result.set ↔ Reachable next s v := by
  obtain ⟨h1, h2, _, h4, _⟩ := hInv
  intro v
  constructor
  · exact h2 v
  · refine reachable_mem_of_closed next s result.set h1 ?_ v
    intro u hu t htu
    rcases h4 u hu t htu with h | ⟨it, hit, _⟩
    · exact h
    · exact absurd hit (List.not_mem_nil it)

theorem reachableStatesAux_correct (next : V → List V) (s : V) :
    ∀ (fuel : Nat) (stack : List (List V)) (result R : HashVertexSet V),
      Inv next s stack result →
      reachableStatesAux next fuel stack result = some R →
      ∀ v, v ∈ R.set ↔ Reachable next s v := by
  intro fuel
  induction fuel with
  | zero =>
    intro stack result R hInv hrun
    match stack with
    | [] =>
      simp only [reachableStatesAux, Option.some.injEq] at hrun
      exact hrun ▸ inv_final next s result hInv
    | _ :: _ => simp [reachableStatesAux] at hrun
  | succ n ih =>
    intro stack result R hInv hrun
    match stack with
    | [] =>
      simp only [reachableStatesAux, Option.some.injEq] at hrun
      exact hrun ▸ inv_final next s result hInv
    | (t :: it) :: rest =>
      rw [reachableStatesAux] at hrun
      by_cases htm : t ∈ result.set
      · rw [if_pos ((HashVertexSet.contains_iff result t).mpr htm)] at hrun
        exact ih (it :: rest) result R
          (inv_visited next s t it rest result hInv htm) hrun
      · rw [if_neg (fun hc => htm ((HashVertexSet.contains_iff result t).mp hc))]
          at hrun
        exact ih (next t :: it :: rest) (result.insert t).1 R
          (inv_push next s t it rest result hInv htm) hrun
    | [] :: rest =>
      rw [reachableStatesAux] at hrun
      exact ih rest result R (inv_pop next s rest result hInv) hrun

/-- C1: if `reachable_states(G, s)` terminates, the returned set contains `v`
iff there is a finite sequence of zero or more `next` steps from `s` to `v`,
and in particular it contains `s` itself. -/
theorem reachable_states_correct (next : V → List V) (s : V) (fuel : Nat)
    (R : HashVertexSet V) (h : reachableStates next s fuel = some R) :
    (∀ v, R.contains v = true ↔ Reachable next s v) ∧ R.contains s = true := by
  have hmem := reachableStatesAux_correct next s fuel [next s]
    ((HashVertexSet.mk []).insert s).1 R (inv_init next s) h
  refine ⟨fun v => ?_, ?_⟩
  · rw [HashVertexSet.contains_iff]
    exact hmem v
  · rw [HashVertexSet.contains_iff]
    exact (hmem s).mpr Relation.ReflTransGen.refl

theorem reachable_states_correct_witness :
    (∀ v, (HashVertexSet.mk [vX]).contains v = true ↔ Reachable nilOp vX v) ∧
    (HashVertexSet.mk [vX]).contains vX = true :=
  reachable_states_correct nilOp vX 1 (HashVertexSet.mk [vX]) rfl

/-! ## Termination -/

theorem length_lt_card (l : List V) (F : Finset V) (t : V) (hnd : l.Nodup)
    (hsub : ∀ x ∈ l, x ∈ F) (ht : t ∈ F) (htl : t ∉ l) : l.length < F.card := by
  have h1 : l.toFinset ⊆ F := fun x hx => hsub x (List.mem_toFinset.mp hx)
  have h3 : l.toFinset ⊂ F :=
    (Finset.ssubset_iff_of_subset h1).mpr
      ⟨t, ht, fun hx => htl (List.mem_toFinset.mp hx)⟩
  calc l.length = l.toFinset.card := (List.toFinset_card_of_nodup hnd).symm
    _ < F.card := Finset.card_lt_card h3

theorem run_terminates (next : V → List V) (s : V) (F : Finset V) (C : Nat)
    (hF : ∀ v, Reachable next s v → v ∈ F)
    (hC : ∀ v ∈ F, (next v).length < C) :
    ∀ (n : Nat) (stack : List (List V)) (result : HashVertexSet V),
      Inv next s stack result →
      dfsMeasure C F.card stack result ≤ n →
      ∃ R, reachableStatesAux next (n + 1) stack result = some R := by
  intro n
  induction n with
  | zero =>
    intro stack result hInv hm
    match stack with
    | [] => exact ⟨result, rfl⟩
    | it :: rest =>
      exfalso
      simp only [dfsMeasure, List.length_cons] at hm
      omega
  | succ n ih =>
    intro stack result hInv hm
    match stack with
    | [] => exact ⟨result, rfl⟩
    | (t :: it) :: rest =>
      rw [reachableStatesAux]
      by_cases htm : t ∈ result.set
      · rw [if_pos ((HashVertexSet.contains_iff result t).mpr htm)]
        refine ih (it :: rest) result (inv_visited next s t it rest result hInv htm) ?_
        simp only [dfsMeasure, List.map_cons, List.sum_cons, List.length_cons] at hm ⊢
        omega
      · rw [if_neg (fun hc => htm ((HashVertexSet.contains_iff result t).mp hc))]
        refine ih (next t :: it :: rest) (result.insert t).1
          (inv_push next s t it rest result hInv htm) ?_
        obtain ⟨_, h2, h3, _, h5⟩ := hInv
        have hreach : Reachable next s t := by
          obtain ⟨u, hu, hsub⟩ := h3 (t :: it) (List.mem_cons_self _ _)
          exact Relation.ReflTransGen.tail (h2 u hu) (hsub t (List.mem_cons_self _ _))
        have htF : t ∈ F := hF t hreach
        have hnl : (next t).length < C := hC t htF
        have hlen : result.set.length < F.card :=
          length_lt_card result.set F t h5 (fun x hx => hF x (h2 x hx)) htF htm
        simp only [HashVertexSet.insert, if_neg htm]
        simp only [dfsMeasure, List.map_cons, List.sum_cons, List.length_cons] at hm ⊢
        have hsplit : C * (F.card - result.set.length) =
            C * (F.card - (result.set.length + 1)) + C := by
          rw [show F.card - result.set.length =
            (F.card - (result.set.length + 1)) + 1 from by omega, Nat.mul_succ]
        rw [hsplit] at hm
        generalize C * (F.card - (result.set.length + 1)) = A at hm ⊢
        omega
    | [] :: rest =>
      rw [reachableStatesAux]
      refine ih rest result (inv_pop next s rest result hInv) ?_
      simp only [dfsMeasure, List.map_cons, List.sum_cons, List.length_cons] at hm ⊢
      omega

theorem terminates_of_finite (next : V → List V) (s : V)
    (hfin : (setOf (Reachable next s)).Finite) :
    ∃ fuel R, reachableStates next s fuel = some R := by
  classical
  obtain ⟨F, hF⟩ : ∃ F : Finset V, ∀ v, Reachable next s v → v ∈ F :=
    ⟨hfin.toFinset, fun v hv => hfin.mem_toFinset.mpr hv⟩
  have hCb : ∀ v ∈ F, (next v).length < (F.sup fun v => (next v).length) + 1 :=
    fun v hv =>
      Nat.lt_succ_of_le (@Finset.le_sup _ _ _ _ F (fun v => (next v).length) v hv)
  obtain ⟨R, hR⟩ := run_terminates next s F ((F.sup fun v => (next v).length) + 1)
    hF hCb
    (dfsMeasure ((F.sup fun v => (next v).length) + 1) F.card [next s]
      ((HashVertexSet.mk []).insert s).1)
    [next s] ((HashVertexSet.mk []).insert s).1 (inv_init next s) le_rfl
  exact ⟨_, R, hR⟩

/-- C2: whenever the set of vertices reachable from the source is finite, the
algorithm terminates — some amount of fuel suffices for the loop to finish.
(In this embedding each per-vertex successor sequence is a `List`, hence
finite, matching the claim's other hypothesis; successors of vertices that
are never visited are unconstrained.) -/
theorem reachable_states_terminates (next : V → List V) (s : V)
    (hfin : (setOf (Reachable next s)).Finite) :
    ∃ fuel R, reachableStates next s fuel = some R :=
  terminates_of_finite next s hfin

theorem reachable_nilOp (v w : String) (h : Reachable nilOp v w) : w = v := by
  induction h with
  | refl => rfl
  | tail _ hbc _ =>
    simp only [Step, nilOp, List.not_mem_nil] at hbc

theorem reachable_states_terminates_witness :
    ∃ fuel R, reachableStates nilOp vX fuel = some R :=
  reachable_states_terminates nilOp vX
    (Set.Finite.subset (Set.finite_singleton vX)
      (fun v hv => Set.mem_singleton_iff.mpr (reachable_nilOp vX v hv)))

/-! ## Vertex-set operations -/

/-- C3: `insert` returns `true` iff the vertex was not already a member (the
membership changed); after inserting it once, `contains` holds, a second
insert of the same vertex returns `false`, and that second insert leaves the
`contains` results of every vertex unchanged. -/
theorem insert_spec (s : HashVertexSet V) (v : V) :
    ((s.insert v).2 = true ↔ s.contains v = false) ∧
    ((s.insert v).1.contains v = true) ∧
    (((s.insert v).1.insert v).2 = false) ∧
    (∀ w, (((s.insert v).1.insert v).1).contains w = ((s.insert v).1).contains w) := by
  by_cases h : v ∈ s.set
  · simp [HashVertexSet.insert, HashVertexSet.contains, h]
  · simp [HashVertexSet.insert, HashVertexSet.contains, h]

theorem insert_result_ne_nil (s : HashVertexSet V) (v : V) :
    ((s.insert v).1).set ≠ [] := by
  by_cases h : v ∈ s.set
  · simp only [HashVertexSet.insert, if_pos h]
    exact List.ne_nil_of_mem h
  · simp [HashVertexSet.insert, h]

theorem insertAll_ne_nil (vs : List V) (s : HashVertexSet V) (h : s.set ≠ []) :
    (insertAll s vs).set ≠ [] := by
  induction vs generalizing s with
  | nil => exact h
  | cons v vs ih =>
    simp only [insertAll, List.foldl_cons]
    exact ih _ (insert_result_ne_nil s v)

/-- C9: a set fresh from `new_vertex_set` is empty; a set is empty iff no
insert was ever performed on it; after any insert the set is nonempty; and
`contains` holds iff an equal element is present.  (`is_empty` and `contains`
take `&self` in the source and are embedded as pure functions, so they cannot
mutate the set.) -/
theorem vertex_set_query_spec :
    (∀ g : SimpleGraph, (SimpleGraphAlgorithms.new_vertex_set g).isEmptySet = true) ∧
    (∀ (g : SimpleGraph) (vs : List String),
      (insertAll (SimpleGraphAlgorithms.new_vertex_set g) vs).isEmptySet = true ↔
        vs = []) ∧
    (∀ (s : HashVertexSet String) (v : String), ((s.insert v).1).isEmptySet = false) ∧
    (∀ (s : HashVertexSet String) (v : String), s.contains v = true ↔ v ∈ s.set) := by
  refine ⟨fun g => rfl, ?_, ?_, fun s v => HashVertexSet.contains_iff s v⟩
  · intro g vs
    cases vs with
    | nil => simp [insertAll, SimpleGraphAlgorithms.new_vertex_set, HashVertexSet.isEmptySet]
    | cons v vs =>
      have hne : (insertAll (SimpleGraphAlgorithms.new_vertex_set g) (v :: vs)).set ≠ [] := by
        simp only [insertAll, List.foldl_cons]
        exact insertAll_ne_nil vs _ (insert_result_ne_nil _ v)
      simp [HashVertexSet.isEmptySet, List.isEmpty_iff, hne]
  · intro s v
    have hne := insert_result_ne_nil s v
    simp [HashVertexSet.isEmptySet, List.isEmpty_iff, hne]

/-! ## Push counting -/

theorem auxCount_proj (next : V → List V) :
    ∀ (fuel : Nat) (stack : List (List V)) (result : HashVertexSet V) (c : Nat),
      (reachableStatesAuxCount next fuel stack result c).map Prod.snd =
        reachableStatesAux next fuel stack result := by
  intro fuel
  induction fuel with
  | zero =>
    intro stack result c
    match stack with
    | [] => rfl
    | _ :: _ => rfl
  | succ n ih =>
    intro stack result c
    match stack with
    | [] => rfl
    | (t :: it) :: rest =>
      rw [reachableStatesAux, reachableStatesAuxCount]
      by_cases htm : result.contains t = true
      · rw [if_pos htm, if_pos htm]
        exact ih _ _ _
      · rw [if_neg htm, if_neg htm]
        exact ih _ _ _
    | [] :: rest =>
      rw [reachableStatesAux, reachableStatesAuxCount]
      exact ih _ _ _

theorem auxCount_spec (next : V → List V) :
    ∀ (fuel : Nat) (stack : List (List V)) (result : HashVertexSet V) (c p : Nat)
      (R : HashVertexSet V),
      result.set.Nodup →
      reachableStatesAuxCount next fuel stack result c = some (p, R) →
      R.set.Nodup ∧ p + result.set.length = c + R.set.length := by
  intro fuel
  induction fuel with
  | zero =>
    intro stack result c p R hnd hrun
    match stack with
    | [] =>
      simp only [reachableStatesAuxCount, Option.some.injEq, Prod.mk.injEq] at hrun
      obtain ⟨rfl, rfl⟩ := hrun
      exact ⟨hnd, by omega⟩
    | _ :: _ => simp [reachableStatesAuxCount] at hrun
  | succ n ih =>
    intro stack result c p R hnd hrun
    match stack with
    | [] =>
      simp only [reachableStatesAuxCount, Option.some.injEq, Prod.mk.injEq] at hrun
      obtain ⟨rfl, rfl⟩ := hrun
      exact ⟨hnd, by omega⟩
    | (t :: it) :: rest =>
      rw [reachableStatesAuxCount] at hrun
      by_cases htm : t ∈ result.set
      · rw [if_pos ((HashVertexSet.contains_iff result t).mpr htm)] at hrun
        exact ih _ _ _ _ _ hnd hrun
      · rw [if_neg (fun hc => htm ((HashVertexSet.contains_iff result t).mp hc))]
          at hrun
        simp only [HashVertexSet.insert, if_neg htm] at hrun
        obtain ⟨hnd', hlen⟩ :=
          ih (next t :: it :: rest) ⟨t :: result.set⟩ (c + 1) p R
            (List.nodup_cons.mpr ⟨htm, hnd⟩) hrun
        refine ⟨hnd', ?_⟩
        simp only [List.length_cons] at hlen
        omega
    | [] :: rest =>
      rw [reachableStatesAuxCount] at hrun
      exact ih _ _ _ _ _ hnd hrun

/-- C5: whenever `reachable_states` terminates, the total number of iterators
pushed onto the exploration stack (the initial push included) equals the
number of distinct vertices inserted into the result set, which holds no
duplicates — `next` is invoked exactly once per distinct vertex of the
result. -/
theorem push_count_eq (next : V → List V) (s : V) (fuel : Nat)
    (R : HashVertexSet V) (h : reachableStates next s fuel = some R) :
    reachableStatesCount next s fuel = some (R.set.length, R) ∧ R.set.Nodup := by
  have hproj := auxCount_proj next fuel [next s] ((HashVertexSet.mk []).insert s).1 1
  rw [reachableStates] at h
  rw [h] at hproj
  obtain ⟨⟨p, R'⟩, hpr, hsnd⟩ := Option.map_eq_some'.mp hproj
  simp only at hsnd
  rw [hsnd] at hpr
  have hinit : ((HashVertexSet.mk []).insert s).1.set = [s] := by
    simp [HashVertexSet.insert]
  obtain ⟨hnd, hlen⟩ :=
    auxCount_spec next fuel [next s] ((HashVertexSet.mk []).insert s).1 1 p R
      (by rw [hinit]; exact List.nodup_singleton s) hpr
  rw [hinit] at hlen
  have hp : p = R.set.length := by
    simp only [List.length_singleton] at hlen
    omega
  refine ⟨?_, hnd⟩
  rw [reachableStatesCount, hpr, hp]

theorem push_count_eq_witness :
    (reachableStatesCount nilOp vX 1 =
      some ((HashVertexSet.mk [vX]).set.length, HashVertexSet.mk [vX]) ∧
      (HashVertexSet.mk [vX]).set.Nodup) :=
  push_count_eq nilOp vX 1 (HashVertexSet.mk [vX]) rfl

/-! ## The SimpleGraph instance -/

/-- C7: `SimpleGraph::next` is deterministic as a two-run property — two
calls on the same graph with equal source vertices yield successor sequences
with equal elements in the same order.  (`next` takes `&self` and clones the
stored vector, so in the pure embedding the two runs are two applications of
the same function.) -/
theorem next_deterministic (g : SimpleGraph) (s1 s2 : String) (h : s1 = s2) :
    g.next s1 = g.next s2 := by
  rw [h]

theorem next_deterministic_witness : testGraph.next vA = testGraph.next vA :=
  next_deterministic testGraph vA vA rfl

theorem simpleReachAux_congr (g1 g2 : SimpleGraph)
    (hn : ∀ v, g1.next v = g2.next v) :
    ∀ (fuel : Nat) (stack : List (List String)) (result : HashVertexSet String),
      simpleReachAux g1 fuel stack result = simpleReachAux g2 fuel stack result := by
  intro fuel
  induction fuel with
  | zero =>
    intro stack result
    match stack with
    | [] => rfl
    | _ :: _ => rfl
  | succ n ih =>
    intro stack result
    match stack with
    | [] => rfl
    | (t :: it) :: rest =>
      rw [simpleReachAux, simpleReachAux]
      by_cases htm : result.contains t = true
      · rw [if_pos htm, if_pos htm]
        exact ih _ _
      · rw [if_neg htm, if_neg htm, hn t]
        cases g2.next t with
        | none => rfl
        | some succ => exact ih _ _
    | [] :: rest =>
      rw [simpleReachAux, simpleReachAux]
      exact ih _ _

/-- C10: the outcome of `reachable_states` on a `SimpleGraph` depends only on
the `successors` field — two graphs with equal `successors` maps but
arbitrary `vertices` and `predecessors` fields produce identical results from
every source (so in particular result sets of identical membership). -/
theorem reach_depends_only_on_successors (g1 g2 : SimpleGraph)
    (h : g1.successors = g2.successors) (s : String) (fuel : Nat) :
    SimpleGraph.reachable_states g1 s fuel = SimpleGraph.reachable_states g2 s fuel := by
  have hn : ∀ v, g1.next v = g2.next v := fun v => by
    rw [SimpleGraph.next, SimpleGraph.next, h]
  rw [SimpleGraph.reachable_states, SimpleGraph.reachable_states, hn s]
  cases g2.next s with
  | none => rfl
  | some succ =>
    simp only [SimpleGraphAlgorithms.new_vertex_set]
    exact simpleReachAux_congr g1 g2 hn fuel [succ] _

theorem reach_depends_only_on_successors_witness :
    SimpleGraph.reachable_states testGraph vA 100 =
      SimpleGraph.reachable_states testGraphAlt vA 100 :=
  reach_depends_only_on_successors testGraph testGraphAlt rfl vA 100

/-- C8: on the graph with the single isolated vertex `X` (empty successor
list), `reachable_states` from `X` terminates and returns a set containing
exactly `X` and nothing else. -/
theorem reachable_states_isolated :
    SimpleGraph.reachable_states testGraphX vX 10 = .ok ⟨[vX]⟩ ∧
    (∀ v, (HashVertexSet.mk [vX]).contains v = true ↔ v = vX) := by
  refine ⟨rfl, fun v => ?_⟩
  simp [HashVertexSet.contains]

/-- C6: on the unit-test graph (`A→B`, `B→C`, `C→C`), `reachable_states`
returns exactly `{A, B, C}` from `A`, exactly `{B, C}` from `B` and exactly
`{C}` from `C`; `A` is absent from the results for `B` and `C`, `B` is absent
from the result for `C`, and despite the self-loop each run terminates with
`C` occurring once as a set element. -/
theorem reachable_states_test_scenario :
    (SimpleGraph.reachable_states testGraph vA 100 = .ok ⟨[vC, vB, vA]⟩ ∧
      ∀ v, (HashVertexSet.mk [vC, vB, vA]).contains v = true ↔
        (v = vA ∨ v = vB ∨ v = vC)) ∧
    (SimpleGraph.reachable_states testGraph vB 100 = .ok ⟨[vC, vB]⟩ ∧
      ∀ v, (HashVertexSet.mk [vC, vB]).contains v = true ↔ (v = vB ∨ v = vC)) ∧
    (SimpleGraph.reachable_states testGraph vC 100 = .ok ⟨[vC]⟩ ∧
      ∀ v, (HashVertexSet.mk [vC]).contains v = true ↔ v = vC) ∧
    (HashVertexSet.mk [vC, vB]).contains vA = false ∧
    (HashVertexSet.mk [vC]).contains vA = false ∧
    (HashVertexSet.mk [vC]).contains vB = false ∧
    (HashVertexSet.mk [vC, vB, vA]).set.count vC = 1 ∧
    (HashVertexSet.mk [vC, vB]).set.count vC = 1 ∧
    (HashVertexSet.mk [vC]).set.count vC = 1 := by
  refine ⟨⟨rfl, fun v => ?_⟩, ⟨rfl, fun v => ?_⟩, ⟨rfl, fun v => ?_⟩,
    by decide, by decide, by decide, by decide, by decide, by decide⟩
  · simp [HashVertexSet.contains]
    tauto
  · simp [HashVertexSet.contains]
    tauto
  · simp [HashVertexSet.contains]

/-! ## The unwrap in SimpleGraph::next -/

theorem lookup_eq_none_iff (l : List (String × List String)) (v : String) :
    l.lookup v = none ↔ v ∉ l.map Prod.fst := by
  induction l with
  | nil => simp [List.lookup]
  | cons p l ih =>
    obtain ⟨k, val⟩ := p
    by_cases h : v = k
    · subst h
      simp [List.lookup]
    · have hb : (v == k) = false := beq_eq_false_iff_ne.mpr h
      simp only [List.lookup, hb, List.map_cons, List.mem_cons]
      rw [ih]
      constructor
      · intro hnot hor
        rcases hor with h1 | h2
        · exact h h1
        · exact hnot h2
      · intro hnot h2
        exact hnot (Or.inr h2)

theorem lookup_mem_values (l : List (String × List String)) (v : String)
    (val : List String) (h : l.lookup v = some val) : val ∈ l.map Prod.snd := by
  induction l with
  | nil => simp [List.lookup] at h
  | cons p l ih =>
    obtain ⟨k, b⟩ := p
    cases hkv : (v == k) with
    | true =>
      simp only [List.lookup, hkv] at h
      cases h
      exact List.mem_cons_self _ _
    | false =>
      simp only [List.lookup, hkv] at h
      exact List.mem_cons_of_mem _ (ih h)

theorem simpleGraph_reachable_finite (g : SimpleGraph) (s : String) :
    (setOf (Reachable g.nextD s)).Finite := by
  refine Set.Finite.subset
    (List.finite_toSet (s :: (g.successors.map Prod.snd).flatten)) ?_
  intro v hv
  simp only [Set.mem_setOf_eq] at hv
  induction hv with
  | refl => exact List.mem_cons_self _ _
  | tail _ hbc _ =>
    rename_i b c _ _
    simp only [Step, SimpleGraph.nextD, SimpleGraph.next] at hbc
    cases hl : g.successors.lookup b with
    | none =>
      rw [hl] at hbc
      exact absurd hbc (List.not_mem_nil c)
    | some val =>
      rw [hl] at hbc
      simp only [Option.getD_some] at hbc
      refine List.mem_cons_of_mem _ ?_
      exact List.mem_flatten.mpr ⟨val, lookup_mem_values g.successors b val hl, hbc⟩

theorem simpleReachAux_agrees (g : SimpleGraph) (s : String)
    (hpre : ∀ v, Reachable g.nextD s v → (g.next v).isSome = true) :
    ∀ (fuel : Nat) (stack : List (List String)) (result : HashVertexSet String),
      Inv g.nextD s stack result →
      simpleReachAux g fuel stack result =
        runOfOption (reachableStatesAux g.nextD fuel stack result) := by
  intro fuel
  induction fuel with
  | zero =>
    intro stack result hInv
    match stack with
    | [] => rfl
    | _ :: _ => rfl
  | succ n ih =>
    intro stack result hInv
    match stack with
    | [] => rfl
    | (t :: it) :: rest =>
      rw [simpleReachAux, reachableStatesAux]
      by_cases htm : t ∈ result.set
      · rw [if_pos ((HashVertexSet.contains_iff result t).mpr htm),
          if_pos ((HashVertexSet.contains_iff result t).mpr htm)]
        exact ih _ _ (inv_visited g.nextD s t it rest result hInv htm)
      · have hne := fun hc => htm ((HashVertexSet.contains_iff result t).mp hc)
        rw [if_neg hne, if_neg hne]
        have hreach : Reachable g.nextD s t := by
          obtain ⟨_, h2, h3, _, _⟩ := hInv
          obtain ⟨u, hu, hsub⟩ := h3 (t :: it) (List.mem_cons_self _ _)
          exact Relation.ReflTransGen.tail (h2 u hu) (hsub t (List.mem_cons_self _ _))
        obtain ⟨succ, hsucc⟩ := Option.isSome_iff_exists.mp (hpre t hreach)
        have hD : g.nextD t = succ := by
          rw [SimpleGraph.nextD, hsucc]
          rfl
        rw [hsucc, hD]
        refine ih _ _ ?_
        have hp := inv_push g.nextD s t it rest result hInv htm
        rw [hD] at hp
        exact hp
    | [] :: rest =>
      rw [simpleReachAux, reachableStatesAux]
      exact ih _ _ (inv_pop g.nextD s rest result hInv)

/-- C4: `SimpleGraph::next` panics (the modelled `unwrap` fails) exactly when
the queried vertex has no entry in the `successors` map; and when the source
and every vertex reachable from it resolve in the map (so in particular every
successor yielded along the way, each being reachable, resolves too), the
panic branch is unreachable and `reachable_states` on the `SimpleGraph`
terminates normally for sufficient fuel. -/
theorem simpleGraph_reach_total (g : SimpleGraph) (s : String)
    (hpre : ∀ v, Reachable g.nextD s v → (g.next v).isSome = true) :
    (∀ v, g.next v = none ↔ v ∉ g.successors.map Prod.fst) ∧
    (∀ fuel, SimpleGraph.reachable_states g s fuel ≠ .unwrapFailed) ∧
    (∃ fuel R, SimpleGraph.reachable_states g s fuel = .ok R) := by
  have hs := hpre s Relation.ReflTransGen.refl
  obtain ⟨succ0, hsucc0⟩ := Option.isSome_iff_exists.mp hs
  have hD : g.nextD s = succ0 := by
    rw [SimpleGraph.nextD, hsucc0]
    rfl
  have hInv : Inv g.nextD s [succ0]
      ((SimpleGraphAlgorithms.new_vertex_set g).insert s).1 := by
    have h0 := inv_init g.nextD s
    rw [hD] at h0
    exact h0
  refine ⟨fun v => lookup_eq_none_iff g.successors v, ?_, ?_⟩
  · intro fuel
    rw [SimpleGraph.reachable_states, hsucc0]
    show simpleReachAux g fuel [succ0]
      ((SimpleGraphAlgorithms.new_vertex_set g).insert s).1 ≠ RunResult.unwrapFailed
    rw [simpleReachAux_agrees g s hpre fuel [succ0] _ hInv]
    cases reachableStatesAux g.nextD fuel [succ0]
        ((SimpleGraphAlgorithms.new_vertex_set g).insert s).1 with
    | none => simp [runOfOption]
    | some R => simp [runOfOption]
  · obtain ⟨fuel, R, hR⟩ :=
      terminates_of_finite g.nextD s (simpleGraph_reachable_finite g s)
    refine ⟨fuel, R, ?_⟩
    rw [SimpleGraph.reachable_states, hsucc0]
    show simpleReachAux g fuel [succ0]
      ((SimpleGraphAlgorithms.new_vertex_set g).insert s).1 = RunResult.ok R
    rw [simpleReachAux_agrees g s hpre fuel [succ0] _ hInv]
    rw [reachableStates, hD] at hR
    simp only [SimpleGraphAlgorithms.new_vertex_set]
    rw [hR]
    rfl

theorem reachableX_eq (v : String) (h : Reachable testGraphX.nextD vX v) :
    v = vX := by
  induction h with
  | refl => rfl
  | tail _ hbc ih =>
    subst ih
    have hnil : testGraphX.nextD vX = [] := rfl
    simp only [Step, hnil] at hbc
    exact absurd hbc (List.not_mem_nil _)

theorem simpleGraph_reach_total_witness :
    (∀ v, testGraphX.next v = none ↔ v ∉ testGraphX.successors.map Prod.fst) ∧
    (∀ fuel, SimpleGraph.reachable_states testGraphX vX fuel ≠ .unwrapFailed) ∧
    (∃ fuel R, SimpleGraph.reachable_states testGraphX vX fuel = .ok R) :=
  simpleGraph_reach_total testGraphX vX
    (fun v hv => by
      rw [reachableX_eq v hv]
      rfl)

end Biodivine
